import Mathlib

/-!
# Verification of the Categorical DQN agent (C51)

Shallow embedding of `tf_agents/agents/categorical_dqn/categorical_dqn_agent.py`.

Tensors of floats are modelled as `Fin`-indexed families of rationals
(`Fin B → Fin K → ℚ`); the broadcasting/tiling/reshaping steps of the
TensorFlow code (`tiled_support`, `reshaped_target_support`, the trailing
`reshape`) only rearrange indices and are reflected directly in the index
structure of the definitions.  The target support always has at least two
atoms (`M + 2`), matching the code's unconditional read of
`target_support_deltas[0]`.  The dynamic shape/validation behaviour of
`project_distribution` is modelled separately on `Tensor`, a shape-carrying
flat tensor, since malformed shapes are not expressible in the `Fin` model.
The softmax of `_next_q_distribution` is modelled over the reals.
-/

namespace CategoricalDqn

/-- `tf.clip_by_value t lo hi`: clamp `t` into `[lo, hi]`. -/
def clipByValue (t lo hi : ℚ) : ℚ := min (max t lo) hi

/-- `v_min = target_support[0]` in `project_distribution`. -/
def v_min {M : ℕ} (target_support : Fin (M + 2) → ℚ) : ℚ := target_support 0

/-- `v_max = target_support[-1]` in `project_distribution`. -/
def v_max {M : ℕ} (target_support : Fin (M + 2) → ℚ) : ℚ :=
  target_support (Fin.last (M + 1))

/-- `delta_z = (target_support[1:] - target_support[:-1])[0]` in
`project_distribution`. -/
def delta_z {M : ℕ} (target_support : Fin (M + 2) → ℚ) : ℚ :=
  target_support 1 - target_support 0

/-- `clipped_support = tf.clip_by_value(supports, v_min, v_max)`. -/
def clipped_support {B K M : ℕ} (supports : Fin B → Fin K → ℚ)
    (target_support : Fin (M + 2) → ℚ) : Fin B → Fin K → ℚ :=
  fun b i => clipByValue (supports b i) (v_min target_support) (v_max target_support)

/-- `numerator = tf.abs(tiled_support - reshaped_target_support)`: the
distance from each (clipped) source atom `i` to each target atom `j`. -/
def numerator {B K M : ℕ} (supports : Fin B → Fin K → ℚ)
    (target_support : Fin (M + 2) → ℚ) : Fin B → Fin (M + 2) → Fin K → ℚ :=
  fun b j i => |clipped_support supports target_support b i - target_support j|

/-- `quotient = 1 - (numerator / delta_z)`. -/
def quotient {B K M : ℕ} (supports : Fin B → Fin K → ℚ)
    (target_support : Fin (M + 2) → ℚ) : Fin B → Fin (M + 2) → Fin K → ℚ :=
  fun b j i => 1 - numerator supports target_support b j i / delta_z target_support

/-- `clipped_quotient = tf.clip_by_value(quotient, 0, 1)`. -/
def clipped_quotient {B K M : ℕ} (supports : Fin B → Fin K → ℚ)
    (target_support : Fin (M + 2) → ℚ) : Fin B → Fin (M + 2) → Fin K → ℚ :=
  fun b j i => clipByValue (quotient supports target_support b j i) 0 1

/-- `inner_prod = clipped_quotient * weights`: the mass that source atom `i`
of row `b` contributes to target atom `j`. -/
def inner_prod {B K M : ℕ} (supports weights : Fin B → Fin K → ℚ)
    (target_support : Fin (M + 2) → ℚ) : Fin B → Fin (M + 2) → Fin K → ℚ :=
  fun b j i => clipped_quotient supports target_support b j i * weights b i

/-- `project_distribution(supports, weights, target_support)`
(categorical_dqn_agent.py, lines 459-540): project a batch of categorical
distributions, given per-row supports and weights, onto the fixed
`target_support`.  The result entry `(b, j)` is
`projection = tf.reduce_sum(inner_prod, 3)`. -/
def project_distribution {B K M : ℕ} (supports weights : Fin B → Fin K → ℚ)
    (target_support : Fin (M + 2) → ℚ) : Fin B → Fin (M + 2) → ℚ :=
  fun b j => ∑ i, inner_prod supports weights target_support b j i

/-- Supports of the worked example in the docstring of `project_distribution`. -/
def exSupports : Fin 2 → Fin 5 → ℚ := ![![0, 2, 4, 6, 8], ![1, 3, 4, 5, 6]]

/-- Weights of the worked example. -/
def exWeights : Fin 2 → Fin 5 → ℚ :=
  ![![1/10, 6/10, 1/10, 1/10, 1/10], ![1/10, 2/10, 5/10, 1/10, 1/10]]

/-- Target support of the worked example. -/
def exTarget : Fin (3 + 2) → ℚ := ![4, 5, 6, 7, 8]

/-- Expected projection of the worked example. -/
def exProjection : Fin 2 → Fin 5 → ℚ :=
  ![![8/10, 0, 1/10, 0, 1/10], ![8/10, 1/10, 1/10, 0, 0]]

/-- A one-row batch whose support coincides with the worked example's target
support (for the identity-projection witness). -/
def exIdSupports : Fin 1 → Fin (3 + 2) → ℚ := fun _ => exTarget

/-- Weights for the identity-projection witness. -/
def exIdWeights : Fin 1 → Fin (3 + 2) → ℚ := fun _ => ![1/10, 2/10, 4/10, 2/10, 1/10]

/-- Modelled from the spec: `value_ops.discounted_return(rewards, discounts,
final_value, time_major=False, provide_all_returns=False)` — the n-step
return accumulator consumed by `_loss`, which is not part of this source
file.  Per the spec it accumulates the discounted reward over the window and
bootstraps with `final_value`: `G_t = rewards[t] + discounts[t] * G_{t+1}`,
returning `G_0`. -/
def discounted_return (rewards discounts : List ℚ) (final_value : ℚ) : ℚ :=
  match rewards, discounts with
  | r :: rs, d :: ds => r + d * discounted_return rs ds final_value
  | _, _ => final_value

/-- The dedicated 1-step target support (categorical_dqn_agent.py, lines
243-263): `reward_term = reward_scale_factor * reward`,
`next_value_term = discount * tiled_support`, and
`target_support = reward_term + gamma * next_value_term`, per batch row.
`reward` and `discount` are the next-time-step reward/discount of the
extracted transition. -/
def target_support_one_step {K : ℕ} (gamma reward_scale_factor reward discount : ℚ)
    (support : Fin K → ℚ) : Fin K → ℚ :=
  fun j => reward_scale_factor * reward + gamma * (discount * support j)

/-- The n-step target support (categorical_dqn_agent.py, lines 264-294) for
one batch row with experience reward/discount sequences over the trajectory
window: `rewards = reward_scale_factor * experience.reward[:, :-1]`,
`discounts = gamma * experience.discount[:, :-1]`,
`discounted_returns = discounted_return(rewards, discounts, 0)`,
`final_value_discount = prod(discounts)`, and
`target_support = discounted_returns + final_value_discount * tiled_support`. -/
def target_support_n_step {K : ℕ} (gamma reward_scale_factor : ℚ)
    (expReward expDiscount : List ℚ) (support : Fin K → ℚ) : Fin K → ℚ :=
  let rewards := expReward.dropLast.map (fun r => reward_scale_factor * r)
  let discounts := expDiscount.dropLast.map (fun d => gamma * d)
  let discounted_returns := discounted_return rewards discounts 0
  let final_value_discount := discounts.prod
  fun j => discounted_returns + final_value_discount * support j

/-- `tf.nn.softmax` along the atom axis, over the reals. -/
noncomputable def softmax {K : ℕ} (logits : Fin K → ℝ) : Fin K → ℝ :=
  fun k => Real.exp (logits k) / ∑ m, Real.exp (logits m)

/-- `tf.argmax` along an axis of positive size: the smallest index attaining
the maximum value. -/
noncomputable def argmaxIdx : {n : ℕ} → (Fin (n + 1) → ℝ) → Fin (n + 1)
  | 0, _ => 0
  | _ + 1, f =>
    let rest := (argmaxIdx (fun i => f i.succ)).succ
    if f rest ≤ f 0 then 0 else rest

/-- `CategoricalDqnAgent._next_q_distribution` (categorical_dqn_agent.py,
lines 355-380), with the target network's logits for the next observations
supplied as an input (the network itself is an external collaborator):
softmax the logits per action, compute per-action expected values
`next_target_q_values = tf.reduce_sum(support * next_target_probabilities)`,
take the argmax over actions, and gather that action's probability row. -/
noncomputable def next_q_distribution {B A K : ℕ} (support : Fin K → ℝ)
    (next_target_logits : Fin B → Fin (A + 1) → Fin K → ℝ) : Fin B → Fin K → ℝ :=
  let next_target_probabilities := fun b a => softmax (next_target_logits b a)
  let next_target_q_values := fun b a => ∑ k, support k * next_target_probabilities b a k
  fun b => next_target_probabilities b (argmaxIdx (next_target_q_values b))

/-- A dynamically shaped rational tensor: a shape (the list of dimension
sizes) plus row-major flattened data.  Used to model the shape and validation
behaviour of `project_distribution`, which the statically shaped `Fin` model
cannot express. -/
structure Tensor where
  shape : List ℕ
  data : List ℚ
deriving DecidableEq

/-- `target_support[1:] - target_support[:-1]` on flat data. -/
def listDeltas (l : List ℚ) : List ℚ := List.zipWith (fun a b => a - b) l.tail l

/-- The `target_support` values are monotonically increasing (all adjacent
deltas positive) — the fourth `tf.Assert` of `project_distribution`. -/
def monotonicallyIncreasing (l : List ℚ) : Prop := ∀ d ∈ listDeltas l, 0 < d

/-- The `target_support` values are equally spaced (every delta equals
`delta_z`, the first delta) — the fifth `tf.Assert` of
`project_distribution`. -/
def equallySpaced (l : List ℚ) : Prop := ∀ d ∈ listDeltas l, d = (listDeltas l).headD 0

instance instDecMonotonicallyIncreasing (l : List ℚ) :
    Decidable (monotonicallyIncreasing l) :=
  inferInstanceAs (Decidable (∀ d ∈ listDeltas l, 0 < d))

instance instDecEquallySpaced (l : List ℚ) : Decidable (equallySpaced l) :=
  inferInstanceAs (Decidable (∀ d ∈ listDeltas l, d = (listDeltas l).headD 0))

/-- The numeric payload of `project_distribution` on flat tensors: row `b` of
the output is row `b` of `supports`/`weights` projected onto
`target_support`, exactly as in the `Fin`-indexed model. -/
def projectTensorData (supports weights target_support : Tensor) : Tensor :=
  let K := supports.shape.tail.headD 0
  let ts := target_support.data
  let vmin := ts.headD 0
  let vmax := ts.getLastD 0
  let dz := (listDeltas ts).headD 0
  let row := fun (d : List ℚ) (b : ℕ) => (d.drop (b * K)).take K
  { shape := [supports.shape.headD 0, ts.length],
    data := (List.range (supports.shape.headD 0)).flatMap (fun b => ts.map (fun z =>
      (List.zipWith (fun s w => min (max (1 - |min (max s vmin) vmax - z| / dz) 0) 1 * w)
        (row supports.data b) (row weights.data b)).sum)) }

/-- `project_distribution` with its argument checking (categorical_dqn_agent.py,
lines 427-459).  The three static shape assertions (lines 431-433) run
unconditionally; the value assertions on `target_support` (monotonically
increasing, equally spaced) are only built under `validate_args`.  (The first
three `tf.Assert`s built under `validate_args` re-check dynamically the same
shape facts as the static assertions; with fully known shapes, as here, they
can never fire once the static checks passed, so they are not repeated.)
Raised errors are modelled as `Except.error`. -/
def project_distribution_checked (supports weights target_support : Tensor)
    (validate_args : Bool) : Except String Tensor :=
  if supports.shape ≠ weights.shape then
    Except.error "supports is not compatible with weights"
  else if supports.shape.tail ≠ target_support.shape then
    Except.error "supports[0] is not compatible with target_support"
  else if target_support.shape.length ≠ 1 then
    Except.error "target_support must have rank 1"
  else if validate_args ∧ ¬ monotonicallyIncreasing target_support.data then
    Except.error "target_support is not monotonically increasing"
  else if validate_args ∧ ¬ equallySpaced target_support.data then
    Except.error "target_support is not equally spaced"
  else
    Except.ok (projectTensorData supports weights target_support)

/-- A `(1, 2)` supports tensor for the validation/shape witnesses. -/
def vSupports : Tensor := ⟨[1, 2], [0, 1]⟩

/-- A `(1, 2)` weights tensor for the validation/shape witnesses. -/
def vWeights : Tensor := ⟨[1, 2], [1/2, 1/2]⟩

/-- A decreasing (malformed) rank-1 target support of matching length. -/
def vTarget : Tensor := ⟨[2], [1, 0]⟩

/-- A `(1, 3)` weights tensor, shape-incompatible with `vSupports`. -/
def sWeights : Tensor := ⟨[1, 3], [1/3, 1/3, 1/3]⟩

end CategoricalDqn

namespace CategoricalDqn

/-- C1: for every batch row `b` and target atom `j`, `project_distribution`
returns `∑ i, clamp (1 - |clip (supports b i) v_min v_max - target_support j|
/ delta_z) 0 1 * weights b i`, where `v_min`/`v_max` are the first/last
elements of `target_support` and `delta_z = target_support 1 -
target_support 0`. -/
theorem project_distribution_pointwise_formula {B K M : ℕ}
    (supports weights : Fin B → Fin K → ℚ) (target_support : Fin (M + 2) → ℚ)
    (b : Fin B) (j : Fin (M + 2)) :
    project_distribution supports weights target_support b j =
      ∑ i, min (max (1 -
            |min (max (supports b i) (target_support 0))
                (target_support (Fin.last (M + 1))) - target_support j| /
              (target_support 1 - target_support 0)) 0) 1 * weights b i := by
  rfl

/-- The clamp of `x` into `[0, 1]` is `x` itself when `x` already lies there. -/
lemma clipByValue_of_mem {x : ℚ} (h0 : 0 ≤ x) (h1 : x ≤ 1) : clipByValue x 0 1 = x := by
  unfold clipByValue
  rw [max_eq_left h0, min_eq_left h1]

/-- The clamp of a nonpositive `x` into `[0, 1]` is `0`. -/
lemma clipByValue_of_nonpos {x : ℚ} (h : x ≤ 0) : clipByValue x 0 1 = 0 := by
  unfold clipByValue
  rw [max_eq_right h, min_eq_left (by norm_num)]

/-- The clamp into `[0, 1]` is nonnegative, whatever its argument. -/
lemma clipByValue_nonneg (x : ℚ) : 0 ≤ clipByValue x 0 1 := by
  unfold clipByValue
  exact le_min (le_max_right _ _) (by norm_num)

/-- A uniformly spaced target support is affine in the atom index. -/
lemma target_support_affine {M : ℕ} (ts : Fin (M + 2) → ℚ)
    (huni : ∀ j : Fin (M + 1), ts j.succ - ts j.castSucc = delta_z ts) :
    ∀ (n : ℕ) (h : n < M + 2), ts ⟨n, h⟩ = ts 0 + (n : ℚ) * delta_z ts := by
  intro n
  induction n with
  | zero =>
    intro h
    norm_num
  | succ k ih =>
    intro h
    have hk : k < M + 1 := by omega
    have hstep := huni ⟨k, hk⟩
    have hsucc : (⟨k, hk⟩ : Fin (M + 1)).succ = (⟨k + 1, h⟩ : Fin (M + 2)) := rfl
    have hcast : (⟨k, hk⟩ : Fin (M + 1)).castSucc = (⟨k, by omega⟩ : Fin (M + 2)) := rfl
    rw [hsucc, hcast] at hstep
    have := ih (by omega)
    push_cast
    linarith

/-- Every atom of a uniformly spaced increasing target support lies between
`v_min` and `v_max`. -/
lemma target_support_mem {M : ℕ} (ts : Fin (M + 2) → ℚ)
    (hinc : 0 < delta_z ts)
    (huni : ∀ j : Fin (M + 1), ts j.succ - ts j.castSucc = delta_z ts)
    (j : Fin (M + 2)) : v_min ts ≤ ts j ∧ ts j ≤ v_max ts := by
  have haff := target_support_affine ts huni
  have hj : ts j = ts 0 + (j : ℚ) * delta_z ts := by
    have := haff j.val j.isLt
    simpa using this
  have hlast : v_max ts = ts 0 + ((M : ℚ) + 1) * delta_z ts := by
    have := haff (M + 1) (by omega)
    unfold v_max Fin.last
    push_cast at this ⊢
    linarith
  have hjle : (j : ℚ) ≤ (M : ℚ) + 1 := by
    have hlt : (j : ℕ) ≤ M + 1 := by omega
    exact_mod_cast hlt
  have hj0 : (0 : ℚ) ≤ (j : ℚ) := by positivity
  constructor
  · unfold v_min
    nlinarith
  · rw [hj, hlast]
    nlinarith

/-- The tent (triangular) kernel centred on the integer grid has unit total
mass on `[0, N + 1]`: `∑ j < N + 2, clamp (1 - |u - j|) 0 1 = 1`. -/
lemma tent_sum (N : ℕ) (u : ℚ) (h0 : 0 ≤ u) (h1 : u ≤ (N : ℚ) + 1) :
    ∑ j ∈ Finset.range (N + 2), clipByValue (1 - |u - (j : ℚ)|) 0 1 = 1 := by
  obtain ⟨t, htN, htu, hut⟩ : ∃ t : ℕ, t ≤ N ∧ (t : ℚ) ≤ u ∧ u ≤ (t : ℚ) + 1 := by
    rcases le_or_lt (Int.toNat ⌊u⌋) N with hle | hlt
    · refine ⟨Int.toNat ⌊u⌋, hle, ?_, ?_⟩
      · have hfl : ((Int.toNat ⌊u⌋ : ℤ) : ℚ) ≤ u := by
          rw [Int.toNat_of_nonneg (Int.floor_nonneg.mpr h0)]
          exact Int.floor_le u
        exact_mod_cast hfl
      · have hfl : u < ((Int.toNat ⌊u⌋ : ℤ) : ℚ) + 1 := by
          rw [Int.toNat_of_nonneg (Int.floor_nonneg.mpr h0)]
          exact Int.lt_floor_add_one u
        have := le_of_lt hfl
        exact_mod_cast this
    · refine ⟨N, le_refl N, ?_, h1⟩
      have hN1 : ((N : ℤ) + 1) ≤ ⌊u⌋ := by
        have : N + 1 ≤ Int.toNat ⌊u⌋ := hlt
        omega
      have : ((N : ℚ) + 1) ≤ u := by
        have h' : (((N : ℤ) + 1 : ℤ) : ℚ) ≤ u := le_trans (by exact_mod_cast hN1) (Int.floor_le u)
        push_cast at h'
        linarith
      linarith
  have hsub : ({t, t + 1} : Finset ℕ) ⊆ Finset.range (N + 2) := by
    intro x hx
    rcases Finset.mem_insert.mp hx with rfl | hx'
    · exact Finset.mem_range.mpr (by omega)
    · rw [Finset.mem_singleton.mp hx']
      exact Finset.mem_range.mpr (by omega)
  have hzero : ∑ j ∈ Finset.range (N + 2) \ {t, t + 1},
      clipByValue (1 - |u - (j : ℚ)|) 0 1 = 0 := by
    apply Finset.sum_eq_zero
    intro j hj
    obtain ⟨-, hjnot⟩ := Finset.mem_sdiff.mp hj
    have hjt : j ≠ t ∧ j ≠ t + 1 := by
      constructor <;> intro h <;> exact hjnot (by simp [h])
    apply clipByValue_of_nonpos
    have habs : 1 ≤ |u - (j : ℚ)| := by
      rcases (by omega : j + 1 ≤ t ∨ t + 2 ≤ j) with hc | hc
      · refine le_abs.mpr (Or.inl ?_)
        have : (j : ℚ) + 1 ≤ (t : ℚ) := by exact_mod_cast hc
        linarith
      · refine le_abs.mpr (Or.inr ?_)
        have : (t : ℚ) + 2 ≤ (j : ℚ) := by exact_mod_cast hc
        linarith
    linarith
  have hpair : ∑ j ∈ ({t, t + 1} : Finset ℕ), clipByValue (1 - |u - (j : ℚ)|) 0 1 = 1 := by
    rw [Finset.sum_pair (by omega : t ≠ t + 1)]
    have e1 : clipByValue (1 - |u - (t : ℚ)|) 0 1 = 1 - (u - (t : ℚ)) := by
      rw [abs_of_nonneg (by linarith)]
      exact clipByValue_of_mem (by linarith) (by linarith)
    have e2 : clipByValue (1 - |u - ((t + 1 : ℕ) : ℚ)|) 0 1 = 1 - ((t : ℚ) + 1 - u) := by
      have hcast : ((t + 1 : ℕ) : ℚ) = (t : ℚ) + 1 := by push_cast; ring
      rw [hcast, abs_of_nonpos (by linarith), neg_sub]
      exact clipByValue_of_mem (by linarith) (by linarith)
    rw [e1, e2]
    ring
  have htotal := Finset.sum_sdiff (f := fun j : ℕ => clipByValue (1 - |u - (j : ℚ)|) 0 1) hsub
  rw [← htotal, hzero, hpair]
  norm_num

/-- For a valid target support, the clamped quotients of any fixed source
atom sum to `1` over the target atoms: all of its mass lands somewhere. -/
lemma clipped_quotient_sum {B K M : ℕ} (supports : Fin B → Fin K → ℚ)
    (ts : Fin (M + 2) → ℚ)
    (hinc : 0 < delta_z ts)
    (huni : ∀ j : Fin (M + 1), ts j.succ - ts j.castSucc = delta_z ts)
    (b : Fin B) (i : Fin K) :
    ∑ j, clipped_quotient supports ts b j i = 1 := by
  have hdz : delta_z ts ≠ 0 := ne_of_gt hinc
  have haff : ∀ j : Fin (M + 2), ts j = ts 0 + (j : ℚ) * delta_z ts := by
    intro j
    have := target_support_affine ts huni j.val j.isLt
    simpa using this
  have hvv : v_min ts ≤ v_max ts := by
    have := (target_support_mem ts hinc huni (Fin.last (M + 1))).1
    unfold v_max
    exact this
  set c := clipped_support supports ts b i with hc
  have hc0 : v_min ts ≤ c := by
    rw [hc]
    unfold clipped_support clipByValue
    exact le_min (le_max_right _ _) hvv
  have hc1 : c ≤ v_max ts := by
    rw [hc]
    unfold clipped_support clipByValue
    exact min_le_right _ _
  have hvm : v_min ts = ts 0 := rfl
  have hvmax : v_max ts = ts 0 + ((M : ℚ) + 1) * delta_z ts := by
    have := target_support_affine ts huni (M + 1) (by omega)
    unfold v_max Fin.last
    push_cast at this ⊢
    linarith
  set u := (c - ts 0) / delta_z ts with hu
  have hu0 : 0 ≤ u := by
    rw [hu]
    apply div_nonneg _ (le_of_lt hinc)
    rw [hvm] at hc0
    linarith
  have hu1 : u ≤ (M : ℚ) + 1 := by
    rw [hu, div_le_iff₀ hinc]
    rw [hvmax] at hc1
    linarith
  have hterm : ∀ j : Fin (M + 2), clipped_quotient supports ts b j i
      = clipByValue (1 - |u - ((j : ℕ) : ℚ)|) 0 1 := by
    intro j
    unfold clipped_quotient quotient numerator
    rw [← hc]
    have hval : |c - ts j| / delta_z ts = |u - ((j : ℕ) : ℚ)| := by
      have hquot : (c - ts j) / delta_z ts = u - ((j : ℕ) : ℚ) := by
        rw [haff j, hu]
        field_simp
        ring
      rw [← hquot, abs_div, abs_of_pos hinc]
    rw [hval]
  calc ∑ j : Fin (M + 2), clipped_quotient supports ts b j i
      = ∑ j : Fin (M + 2), clipByValue (1 - |u - ((j : ℕ) : ℚ)|) 0 1 :=
        Finset.sum_congr rfl (fun j _ => hterm j)
    _ = ∑ j ∈ Finset.range (M + 2), clipByValue (1 - |u - (j : ℚ)|) 0 1 :=
        Fin.sum_univ_eq_sum_range (fun n => clipByValue (1 - |u - (n : ℚ)|) 0 1) (M + 2)
    _ = 1 := tent_sum M u hu0 hu1

/-- C2: mass conservation — for a strictly increasing, uniformly spaced
target support, every output row of `project_distribution` has the same
total mass as the corresponding input row of `weights`. -/
theorem project_distribution_mass_conservation {B K M : ℕ}
    (supports weights : Fin B → Fin K → ℚ) (ts : Fin (M + 2) → ℚ)
    (hinc : 0 < delta_z ts)
    (huni : ∀ j : Fin (M + 1), ts j.succ - ts j.castSucc = delta_z ts)
    (b : Fin B) :
    ∑ j, project_distribution supports weights ts b j = ∑ i, weights b i := by
  unfold project_distribution
  rw [Finset.sum_comm]
  apply Finset.sum_congr rfl
  intro i _
  have hfactor : ∑ j : Fin (M + 2), inner_prod supports weights ts b j i
      = (∑ j : Fin (M + 2), clipped_quotient supports ts b j i) * weights b i := by
    rw [Finset.sum_mul]
    rfl
  rw [hfactor, clipped_quotient_sum supports ts hinc huni b i, one_mul]

/-- Witness for C2 at the worked example. -/
theorem project_distribution_mass_conservation_witness :
    0 < delta_z exTarget ∧
      ∑ j, project_distribution exSupports exWeights exTarget 0 j = ∑ i, exWeights 0 i := by
  refine ⟨by norm_num [delta_z, exTarget], ?_⟩
  exact project_distribution_mass_conservation exSupports exWeights exTarget
    (by norm_num [delta_z, exTarget])
    (by
      intro j
      fin_cases j <;> simp [delta_z, exTarget, Fin.succ, Fin.castSucc, Fin.castAdd, Fin.castLE] <;>
        norm_num)
    0

/-- C3: the worked example from the docstring of `project_distribution`. -/
theorem project_distribution_worked_example :
    ∀ b j, project_distribution exSupports exWeights exTarget b j = exProjection b j := by
  intro b j
  fin_cases b <;> fin_cases j <;>
    · simp only [project_distribution, inner_prod, clipped_quotient, quotient, numerator,
        clipped_support, clipByValue, v_min, v_max, delta_z, exSupports, exWeights, exTarget,
        exProjection, Fin.sum_univ_five, Fin.last, abs_eq_max_neg, min_def, max_def]
      norm_num

/-- When the clipped source atom lands exactly on target atom `t`, its
clamped quotient is the Kronecker delta at `t`. -/
lemma clipped_quotient_at_atom {B K M : ℕ} (supports : Fin B → Fin K → ℚ)
    (ts : Fin (M + 2) → ℚ)
    (hinc : 0 < delta_z ts)
    (huni : ∀ j : Fin (M + 1), ts j.succ - ts j.castSucc = delta_z ts)
    (b : Fin B) (i : Fin K) (t : Fin (M + 2))
    (hclip : clipped_support supports ts b i = ts t) (j : Fin (M + 2)) :
    clipped_quotient supports ts b j i = if j = t then 1 else 0 := by
  have haff : ∀ j : Fin (M + 2), ts j = ts 0 + (j : ℚ) * delta_z ts := by
    intro j
    have := target_support_affine ts huni j.val j.isLt
    simpa using this
  unfold clipped_quotient quotient numerator
  rw [hclip]
  by_cases hj : j = t
  · subst hj
    rw [if_pos rfl, sub_self, abs_zero, zero_div, sub_zero]
    exact clipByValue_of_mem (by norm_num) le_rfl
  · rw [if_neg hj]
    apply clipByValue_of_nonpos
    have hst : ts t - ts j = ((t : ℚ) - (j : ℚ)) * delta_z ts := by
      rw [haff t, haff j]
      ring
    have habs : |ts t - ts j| = |(t : ℚ) - (j : ℚ)| * delta_z ts := by
      rw [hst, abs_mul, abs_of_pos hinc]
    have hge1 : 1 ≤ |(t : ℚ) - (j : ℚ)| := by
      have hv : ((t : ℕ) : ℤ) ≠ ((j : ℕ) : ℤ) := by
        intro h
        exact hj (Fin.ext (by exact_mod_cast h.symm))
      have h1 : (1 : ℤ) ≤ |((t : ℕ) : ℤ) - ((j : ℕ) : ℤ)| :=
        Int.one_le_abs (sub_ne_zero.mpr hv)
      exact_mod_cast h1
    have hdzle : delta_z ts ≤ |ts t - ts j| := by
      rw [habs]
      nlinarith
    have hdiv : 1 ≤ |ts t - ts j| / delta_z ts := (one_le_div₀ hinc).mpr hdzle
    linarith

/-- C4: identity projection — when row `b` of `supports` equals the (strictly
increasing, uniformly spaced) target support pointwise, `project_distribution`
returns row `b` of `weights` unchanged. -/
theorem project_distribution_identity {B M : ℕ}
    (supports weights : Fin B → Fin (M + 2) → ℚ) (ts : Fin (M + 2) → ℚ)
    (hinc : 0 < delta_z ts)
    (huni : ∀ j : Fin (M + 1), ts j.succ - ts j.castSucc = delta_z ts)
    (b : Fin B) (hrow : ∀ i, supports b i = ts i) (j : Fin (M + 2)) :
    project_distribution supports weights ts b j = weights b j := by
  unfold project_distribution
  have hclip : ∀ i : Fin (M + 2), clipped_support supports ts b i = ts i := by
    intro i
    obtain ⟨h1, h2⟩ := target_support_mem ts hinc huni i
    unfold clipped_support clipByValue
    rw [hrow i, max_eq_left h1, min_eq_left h2]
  have hdelta : ∀ i, inner_prod supports weights ts b j i
      = if j = i then weights b i else 0 := by
    intro i
    unfold inner_prod
    rw [clipped_quotient_at_atom supports ts hinc huni b i i (hclip i) j]
    by_cases h : j = i <;> simp [h]
  rw [Finset.sum_congr rfl (fun i _ => hdelta i)]
  simp

/-- Witness for C4: projecting the target support onto itself returns the
weights unchanged. -/
theorem project_distribution_identity_witness :
    0 < delta_z exTarget ∧ (∀ i, exIdSupports 0 i = exTarget i) ∧
      project_distribution exIdSupports exIdWeights exTarget 0 1 = exIdWeights 0 1 := by
  refine ⟨by norm_num [delta_z, exTarget], fun i => rfl, ?_⟩
  exact project_distribution_identity exIdSupports exIdWeights exTarget
    (by norm_num [delta_z, exTarget])
    (by
      intro j
      fin_cases j <;> simp [delta_z, exTarget, Fin.succ, Fin.castSucc, Fin.castAdd, Fin.castLE] <;>
        norm_num)
    0 (fun i => rfl) 1

/-- C5: clipping correctness — a source atom at or below `v_min` contributes
its whole weight to target atom `0` and nothing elsewhere; a source atom at
or above `v_max` contributes its whole weight to the last target atom and
nothing elsewhere. -/
theorem project_distribution_clipping {B K M : ℕ}
    (supports weights : Fin B → Fin K → ℚ) (ts : Fin (M + 2) → ℚ)
    (hinc : 0 < delta_z ts)
    (huni : ∀ j : Fin (M + 1), ts j.succ - ts j.castSucc = delta_z ts)
    (b : Fin B) (i : Fin K) :
    (supports b i ≤ v_min ts →
      inner_prod supports weights ts b 0 i = weights b i ∧
        ∀ j : Fin (M + 2), j ≠ 0 → inner_prod supports weights ts b j i = 0) ∧
    (v_max ts ≤ supports b i →
      inner_prod supports weights ts b (Fin.last (M + 1)) i = weights b i ∧
        ∀ j : Fin (M + 2), j ≠ Fin.last (M + 1) →
          inner_prod supports weights ts b j i = 0) := by
  have hvv : v_min ts ≤ v_max ts := (target_support_mem ts hinc huni (Fin.last (M + 1))).1
  constructor
  · intro hlow
    have hclip : clipped_support supports ts b i = ts 0 := by
      unfold clipped_support clipByValue
      rw [max_eq_right hlow, min_eq_left hvv]
      rfl
    constructor
    · unfold inner_prod
      rw [clipped_quotient_at_atom supports ts hinc huni b i 0 hclip 0, if_pos rfl, one_mul]
    · intro j hj
      unfold inner_prod
      rw [clipped_quotient_at_atom supports ts hinc huni b i 0 hclip j, if_neg hj, zero_mul]
  · intro hhigh
    have hclip : clipped_support supports ts b i = ts (Fin.last (M + 1)) := by
      unfold clipped_support clipByValue
      rw [max_eq_left (le_trans hvv hhigh), min_eq_right hhigh]
      rfl
    constructor
    · unfold inner_prod
      rw [clipped_quotient_at_atom supports ts hinc huni b i (Fin.last (M + 1)) hclip
        (Fin.last (M + 1)), if_pos rfl, one_mul]
    · intro j hj
      unfold inner_prod
      rw [clipped_quotient_at_atom supports ts hinc huni b i (Fin.last (M + 1)) hclip j,
        if_neg hj, zero_mul]

/-- Witness for C5 at the worked example: source atom `0` of row `0` sits at
`0 ≤ v_min = 4` and sends its whole weight to target atom `0`, none to atom
`1`; source atom `4` sits at `8 ≥ v_max = 8` and sends its whole weight to
the last target atom, none to atom `0`. -/
theorem project_distribution_clipping_witness :
    exSupports 0 0 ≤ v_min exTarget ∧ v_max exTarget ≤ exSupports 0 4 ∧
      inner_prod exSupports exWeights exTarget 0 0 0 = exWeights 0 0 ∧
      inner_prod exSupports exWeights exTarget 0 1 0 = 0 ∧
      inner_prod exSupports exWeights exTarget 0 (Fin.last 4) 4 = exWeights 0 4 ∧
      inner_prod exSupports exWeights exTarget 0 0 4 = 0 := by
  have hinc : 0 < delta_z exTarget := by norm_num [delta_z, exTarget]
  have huni : ∀ j : Fin 4, exTarget j.succ - exTarget j.castSucc = delta_z exTarget := by
    intro j
    fin_cases j <;> simp [delta_z, exTarget, Fin.succ, Fin.castSucc, Fin.castAdd, Fin.castLE] <;>
      norm_num
  have hlow : exSupports 0 0 ≤ v_min exTarget := by
    norm_num [exSupports, v_min, exTarget]
  have hhigh : v_max exTarget ≤ exSupports 0 4 := by
    norm_num [exSupports, v_max, exTarget, Fin.last]
  refine ⟨hlow, hhigh, ?_, ?_, ?_, ?_⟩
  · exact ((project_distribution_clipping exSupports exWeights exTarget hinc huni 0 0).1 hlow).1
  · exact ((project_distribution_clipping exSupports exWeights exTarget hinc huni 0 0).1 hlow).2
      1 (by decide)
  · exact ((project_distribution_clipping exSupports exWeights exTarget hinc huni 0 4).2 hhigh).1
  · exact ((project_distribution_clipping exSupports exWeights exTarget hinc huni 0 4).2 hhigh).2
      0 (by decide)

/-- C9: non-negativity — if all weights are non-negative then every entry of
the projection is non-negative, for arbitrary `supports` and
`target_support`. -/
theorem project_distribution_nonneg {B K M : ℕ}
    (supports weights : Fin B → Fin K → ℚ) (ts : Fin (M + 2) → ℚ)
    (hw : ∀ b i, 0 ≤ weights b i) (b : Fin B) (j : Fin (M + 2)) :
    0 ≤ project_distribution supports weights ts b j := by
  unfold project_distribution
  apply Finset.sum_nonneg
  intro i _
  unfold inner_prod clipped_quotient
  exact mul_nonneg (clipByValue_nonneg _) (hw b i)

/-- Witness for C9 at the worked example. -/
theorem project_distribution_nonneg_witness :
    (∀ b i, 0 ≤ exWeights b i) ∧
      0 ≤ project_distribution exSupports exWeights exTarget 0 0 := by
  have hw : ∀ b i, 0 ≤ exWeights b i := by
    intro b i
    fin_cases b <;> fin_cases i <;> norm_num [exWeights]
  exact ⟨hw, project_distribution_nonneg exSupports exWeights exTarget hw 0 0⟩

/-- C7: with `n_step = 1` (so a two-step trajectory window, whose second
reward/discount are the dummy values dropped by `[:, :-1]`), the n-step
target-support construction agrees with the dedicated 1-step path evaluated
on the first step's reward and discount. -/
theorem target_support_n_step_one_eq_one_step {K : ℕ} (gamma reward_scale_factor : ℚ)
    (r1 r2 d1 d2 : ℚ) (support : Fin K → ℚ) :
    target_support_n_step gamma reward_scale_factor [r1, r2] [d1, d2] support =
      target_support_one_step gamma reward_scale_factor r1 d1 support := by
  funext j
  simp only [target_support_n_step, target_support_one_step, discounted_return,
    List.dropLast, List.map, List.prod_cons, List.prod_nil]
  ring

/-- Every entry is bounded by the entry at `argmaxIdx`. -/
lemma argmaxIdx_le : ∀ {n : ℕ} (f : Fin (n + 1) → ℝ) (a : Fin (n + 1)),
    f a ≤ f (argmaxIdx f) := by
  intro n
  induction n with
  | zero =>
    intro f a
    have ha : a = 0 := Fin.ext (by omega)
    rw [ha]
    exact le_refl (f 0)
  | succ m ih =>
    intro f a
    show f a ≤ f (if f ((argmaxIdx (fun i => f i.succ)).succ) ≤ f 0 then 0
      else (argmaxIdx (fun i => f i.succ)).succ)
    by_cases hc : f ((argmaxIdx (fun i => f i.succ)).succ) ≤ f 0
    · rw [if_pos hc]
      refine Fin.cases ?_ (fun i => ?_) a
      · exact le_refl _
      · exact le_trans (ih (fun i => f i.succ) i) hc
    · rw [if_neg hc]
      refine Fin.cases ?_ (fun i => ?_) a
      · exact le_of_lt (lt_of_not_le hc)
      · exact ih (fun i => f i.succ) i

/-- C8: `_next_q_distribution` selects, per batch element, the action whose
expected value `∑ k, support k * softmax(next_target_logits) k` under the
target network's own softmax probabilities is maximal, and returns exactly
that action's softmax probability row. -/
theorem next_q_distribution_greedy {B A K : ℕ} (support : Fin K → ℝ)
    (next_target_logits : Fin B → Fin (A + 1) → Fin K → ℝ) (b : Fin B) :
    ∃ astar : Fin (A + 1),
      (∀ a : Fin (A + 1),
          ∑ k, support k * softmax (next_target_logits b a) k ≤
            ∑ k, support k * softmax (next_target_logits b astar) k) ∧
      next_q_distribution support next_target_logits b =
        softmax (next_target_logits b astar) := by
  refine ⟨argmaxIdx (fun a => ∑ k, support k * softmax (next_target_logits b a) k),
    fun a => ?_, rfl⟩
  exact argmaxIdx_le (fun a => ∑ k, support k * softmax (next_target_logits b a) k) a

/-- C10: the shape assertions of `project_distribution` run whether or not
`validate_args` is set — incompatible shapes of `supports`/`weights`, a row
of `supports` incompatible with `target_support`, or a `target_support` of
rank other than 1, all raise instead of producing a numeric result. -/
theorem project_distribution_checked_shape_assertions
    (supports weights target_support : Tensor) (validate_args : Bool)
    (hbad : supports.shape ≠ weights.shape ∨
      supports.shape.tail ≠ target_support.shape ∨
      target_support.shape.length ≠ 1) :
    (project_distribution_checked supports weights target_support validate_args).isOk
      = false := by
  unfold project_distribution_checked
  rcases hbad with h | h | h
  · rw [if_pos h]
    rfl
  · by_cases h1 : supports.shape ≠ weights.shape
    · rw [if_pos h1]
      rfl
    · rw [if_neg h1, if_pos h]
      rfl
  · by_cases h1 : supports.shape ≠ weights.shape
    · rw [if_pos h1]
      rfl
    · rw [if_neg h1]
      by_cases h2 : supports.shape.tail ≠ target_support.shape
      · rw [if_pos h2]
        rfl
      · rw [if_neg h2, if_pos h]
        rfl

/-- Witness for C10: a `(1, 2)` supports tensor against a `(1, 3)` weights
tensor raises even with `validate_args = false`. -/
theorem project_distribution_checked_shape_assertions_witness :
    vSupports.shape ≠ sWeights.shape ∧
      (project_distribution_checked vSupports sWeights vTarget false).isOk = false := by
  have h : vSupports.shape ≠ sWeights.shape := by decide
  exact ⟨h, project_distribution_checked_shape_assertions vSupports sWeights vTarget false
    (Or.inl h)⟩

/-- C6: with well-shaped inputs and a malformed `target_support`
(non-increasing or non-uniformly spaced), `project_distribution` raises a
validation error when `validate_args` is enabled and raises nothing when it
is disabled. -/
theorem project_distribution_validation_toggle
    (supports weights target_support : Tensor)
    (h1 : supports.shape = weights.shape)
    (h2 : supports.shape.tail = target_support.shape)
    (h3 : target_support.shape.length = 1)
    (hbad : ¬ monotonicallyIncreasing target_support.data ∨
      ¬ equallySpaced target_support.data) :
    (project_distribution_checked supports weights target_support true).isOk = false ∧
      (project_distribution_checked supports weights target_support false).isOk = true := by
  constructor
  · unfold project_distribution_checked
    rw [if_neg (not_not_intro h1), if_neg (not_not_intro h2), if_neg (not_not_intro h3)]
    by_cases hm : monotonicallyIncreasing target_support.data
    · have hsp : ¬ equallySpaced target_support.data := by
        rcases hbad with h | h
        · exact absurd hm h
        · exact h
      rw [if_neg (fun h => h.2 hm), if_pos ⟨rfl, hsp⟩]
      rfl
    · rw [if_pos ⟨rfl, hm⟩]
      rfl
  · unfold project_distribution_checked
    rw [if_neg (not_not_intro h1), if_neg (not_not_intro h2), if_neg (not_not_intro h3)]
    rw [if_neg (fun h => Bool.false_ne_true h.1), if_neg (fun h => Bool.false_ne_true h.1)]
    rfl

/-- Witness for C6: the decreasing target support `[1, 0]` raises under
validation and returns a result without it. -/
theorem project_distribution_validation_toggle_witness :
    ¬ monotonicallyIncreasing vTarget.data ∧
      (project_distribution_checked vSupports vWeights vTarget true).isOk = false ∧
      (project_distribution_checked vSupports vWeights vTarget false).isOk = true := by
  have hm : ¬ monotonicallyIncreasing vTarget.data := by
    intro h
    have := h (-1) (by norm_num [listDeltas, vTarget])
    norm_num at this
  exact ⟨hm, project_distribution_validation_toggle vSupports vWeights vTarget
    (by decide) (by decide) (by decide) (Or.inl hm)⟩

end CategoricalDqn
